import Mathlib

/-!
Verification development for the multi-agent repository's core:
the `bert` intent classifier and the `localllm` protocol adapter.

The Go source is shallowly embedded:
* Go `float64` scores are modelled as exact rationals (`ℚ`); every score in
  the classifier is a sum of halves divided by a vocabulary size, so all
  comparisons appearing in the claims are exact in both models.
* Go `strings.Contains`, `strings.Fields`, `strings.ToLower`,
  `strings.HasPrefix` are modelled character-wise over `List Char`
  (the source only ever feeds them ASCII vocabularies).
* Go `map` iteration order is unspecified at runtime; every place the source
  ranges over a map whose order can be observed (the best/second-best scans in
  `Classify` / `ClassifyWithConfidence`) is modelled by an explicit
  enumeration-order parameter ranging over the permutations of the three
  intents.
-/

namespace MultiAgent

/-! ### String primitives (models of Go `strings` functions) -/

/-- Model of `strings.HasPrefix` on character lists. -/
def startsWithL : List Char → List Char → Bool
  | [], _ => true
  | _ :: _, [] => false
  | a :: as, b :: bs => a == b && startsWithL as bs

/-- Model of `strings.Contains` on character lists: `needle` occurs in `hay`. -/
def containsL (needle : List Char) : List Char → Bool
  | [] => needle.isEmpty
  | c :: cs => startsWithL needle (c :: cs) || containsL needle cs

/-- Model of Go `strings.Contains s sub`. -/
def strContains (s sub : String) : Bool :=
  containsL sub.data s.data

/-- Model of Go `strings.HasPrefix s pre`. -/
def strStartsWith (s p : String) : Bool :=
  startsWithL p.data s.data

/-- Model of Go `strings.ToLower` (ASCII case folding, which is all the
source's vocabularies need). -/
def lowerStr (s : String) : String :=
  ⟨s.data.map Char.toLower⟩

/-- Helper for the model of `strings.Fields`: accumulate the current word
(in reverse) while scanning. -/
def fieldsAux : List Char → List Char → List String
  | [], cur => if cur.isEmpty then [] else [⟨cur.reverse⟩]
  | c :: cs, cur =>
    if c.isWhitespace then
      if cur.isEmpty then fieldsAux cs [] else (⟨cur.reverse⟩ : String) :: fieldsAux cs []
    else fieldsAux cs (c :: cur)

/-- Model of Go `strings.Fields`: whitespace-separated words, no empties. -/
def goFields (s : String) : List String :=
  fieldsAux s.data []

/-! ### The `bert` intent classifier -/

/-- `Intent` from `pkg/bert`: `sql_query`, `visualization`, `general`. -/
inductive Intent where
  | sqlQuery
  | visualization
  | general
deriving DecidableEq, Repr

open Intent

/-- The keyword vocabulary of `IntentSQLQuery` in `NewClassifier`. -/
def sqlKeywords : List String :=
  ["query", "select", "fetch", "get", "show", "list", "find",
   "database", "table", "data", "rows", "records", "sql",
   "where", "from", "join", "count", "sum", "average",
   "filter", "search", "lookup", "retrieve"]

/-- The keyword vocabulary of `IntentVisualization` in `NewClassifier`. -/
def vizKeywords : List String :=
  ["chart", "graph", "plot", "visualize", "visualization",
   "bar", "line", "pie", "scatter", "histogram",
   "display", "render", "draw", "show chart", "create chart",
   "trend", "comparison", "distribution"]

/-- The keyword vocabulary of `IntentGeneral` in `NewClassifier`. -/
def generalKeywords : List String :=
  ["help", "how", "what", "explain", "describe",
   "information", "about", "tell me"]

/-- `intentPrototypes` of the classifier. -/
def keywordsOf : Intent → List String
  | sqlQuery => sqlKeywords
  | visualization => vizKeywords
  | general => generalKeywords

/-- One iteration of the keyword loop in `Classify`/`ClassifyWithConfidence`:
given the running score `acc` for an intent, process one keyword.  Note that
the Go source's `if score == 0 { score += 0.5 }` tests the intent's *running*
total, which is why `acc` threads through. -/
def keywordScore (queryLower : String) (words : List String) (acc : ℚ) (kw : String) : ℚ :=
  if strContains queryLower kw then
    let acc2 := words.foldl
      (fun sc w =>
        if w = kw then sc + 2
        else if strContains w kw || strContains kw w then sc + 1
        else sc) acc
    if acc2 = 0 then acc2 + 1/2 else acc2
  else acc

/-- The raw (pre-heuristic) score of one vocabulary: keyword loop total divided
by the vocabulary size. -/
def rawScore (queryLower : String) (words : List String) (kws : List String) : ℚ :=
  (kws.foldl (keywordScore queryLower words) 0) / (kws.length : ℚ)

/-- Model of `containsAny` from `pkg/bert`. -/
def containsAny (s : String) (subs : List String) : Bool :=
  subs.any (fun sub => strContains s sub)

/-- Add `d` to intent `i` in a score map (model of `scores[i] += d`). -/
def bump (f : Intent → ℚ) (i : Intent) (d : ℚ) : Intent → ℚ :=
  fun j => if j = i then f j + d else f j

/-- Model of `applyHeuristics` from `pkg/bert`. -/
def applyHeuristics (query : String) (scores : Intent → ℚ) : Intent → ℚ :=
  let s1 := if containsAny query ["chart", "graph", "plot", "visualize"]
            then bump scores visualization 1 else scores
  let s2 := if containsAny query ["table", "schema", "column", "database"]
            then bump s1 sqlQuery (1/2) else s1
  let s3 := if containsAny query ["show", "display"] && containsAny query ["chart", "graph"]
            then bump s2 visualization (1/2) else s2
  if (strStartsWith query "how many" || strStartsWith query "what is")
      && containsAny query ["in the database", "in the table", "records", "rows"]
  then bump s3 sqlQuery (1/2) else s3

/-- The adjusted score map computed by `Classify`/`ClassifyWithConfidence`
(the per-intent computation is independent of Go's map iteration order, so it
is a plain function of the query). -/
def adjustedScores (query : String) : Intent → ℚ :=
  let ql := lowerStr query
  let ws := goFields ql
  applyHeuristics ql (fun i => rawScore ql ws (keywordsOf i))

/-- One step of the best-intent scan of `Classify`. -/
def bestStep (sc : Intent → ℚ) (p : Intent × ℚ) (i : Intent) : Intent × ℚ :=
  if sc i > p.2 then (i, sc i) else p

/-- The best-intent scan of `Classify`, parameterised by the (runtime
unspecified) enumeration order of the Go score map. -/
def pickBest (order : List Intent) (sc : Intent → ℚ) : Intent × ℚ :=
  order.foldl (bestStep sc) (general, 0)

/-- Model of `Classifier.Classify`, parameterised by the enumeration order of
the final score map scan. -/
def classifyOrd (order : List Intent) (query : String) : Intent :=
  let sc := adjustedScores query
  let p := pickBest order sc
  if p.2 < 1/10 then general else p.1

/-- One step of the best/second-best scan of `ClassifyWithConfidence`:
state is `(bestIntent, maxScore, secondScore)`. -/
def best2Step (sc : Intent → ℚ) (p : Intent × ℚ × ℚ) (i : Intent) : Intent × ℚ × ℚ :=
  if sc i > p.2.1 then (i, sc i, p.2.1)
  else if sc i > p.2.2 then (p.1, p.2.1, sc i)
  else p

/-- The best/second-best scan of `ClassifyWithConfidence`. -/
def pickBest2 (order : List Intent) (sc : Intent → ℚ) : Intent × ℚ × ℚ :=
  order.foldl (best2Step sc) (general, 0, 0)

/-- Model of `Classifier.ClassifyWithConfidence`, parameterised by the
enumeration order of the final score map scan. -/
def classifyWithConfidenceOrd (order : List Intent) (query : String) : Intent × ℚ :=
  let sc := adjustedScores query
  let p := pickBest2 order sc
  let conf : ℚ :=
    if p.2.1 > 0 then
      (if p.2.2 > 0 then (p.2.1 - p.2.2) / p.2.1 else min p.2.1 1)
    else 0
  if p.2.1 < 1/10 then (general, 0) else (p.1, conf)

/-- All possible enumeration orders of the three-key score map
(Go map iteration order is some permutation of the keys). -/
def allOrders : List (List Intent) :=
  [[sqlQuery, visualization, general],
   [sqlQuery, general, visualization],
   [visualization, sqlQuery, general],
   [visualization, general, sqlQuery],
   [general, sqlQuery, visualization],
   [general, visualization, sqlQuery]]

/-- The canonical enumeration order. -/
def stdOrder : List Intent := [sqlQuery, visualization, general]

/-! ### JSON values

Arbitrary-shape JSON data (`map[string]interface{}` / `interface{}` in the Go
source) is modelled as a tagged union; objects are association lists in
insertion order (Go map iteration order is unspecified, but none of the
claims depend on entry order or on key collisions). -/

/-- A JSON value. -/
inductive Json where
  | str : String → Json
  | num : ℚ → Json
  | bool : Bool → Json
  | null : Json
  | arr : List Json → Json
  | obj : List (String × Json) → Json

/-! ### The `localllm` protocol adapter: wire and internal types -/

/-- Wire `functionCall` struct: `{name, arguments}` with `arguments` the
JSON-encoded argument text. -/
structure WireFunctionCall where
  name : String
  arguments : String
deriving DecidableEq, Repr

/-- Wire `toolCall` struct: `{id, type, function}`. -/
structure WireToolCall where
  id : String
  type : String
  function : WireFunctionCall
deriving DecidableEq, Repr

/-- Wire `chatMessage` struct.  `toolCalls = none` models a Go `nil` slice
(the merge test is `lastMsg.ToolCalls == nil`); an absent `tool_call_id` is
the empty string, as in the Go struct. -/
structure ChatMessage where
  role : String
  content : String
  toolCalls : Option (List WireToolCall)
  toolCallId : String
deriving DecidableEq, Repr

/-- A `genai.FunctionCall` part: the `Args` map is carried in its
JSON-encoded form (the adapter only ever `json.Marshal`s it). -/
structure FuncCall where
  id : String
  name : String
  argsJson : String
deriving DecidableEq, Repr

/-- A `genai.FunctionResponse` part: the `Response` map is carried in its
JSON-encoded form (the adapter only ever `json.Marshal`s it). -/
structure FuncResponse where
  id : String
  name : String
  responseJson : String
deriving DecidableEq, Repr

/-- A `genai.Part`: may carry text, a function call, and/or a function
response; the adapter inspects the three fields independently. -/
structure Part where
  text : String := ""
  functionCall : Option FuncCall := none
  functionResponse : Option FuncResponse := none
deriving DecidableEq, Repr

/-- A `genai.Content` (one conversation turn). -/
structure Content where
  role : String
  parts : List Part
deriving DecidableEq, Repr

/-- The slice of `model.LLMRequest` that `convertToMessages` reads:
`req.Config.SystemInstruction.Parts` (when config and instruction are both
non-nil) and `req.Contents`. -/
structure LLMRequest where
  systemInstruction : Option (List Part) := none
  contents : List Content
deriving DecidableEq, Repr

/-! ### Request construction (`convertToMessages`) -/

/-- The optional leading system message: concatenate the non-empty texts of
the system instruction's parts; emit a `system` message iff the result is
non-empty. -/
def sysMessages (req : LLMRequest) : List ChatMessage :=
  match req.systemInstruction with
  | none => []
  | some parts =>
    let sysText := parts.foldl (fun acc p => if p.text ≠ "" then acc ++ p.text else acc) ""
    if sysText ≠ "" then [⟨"system", sysText, none, ""⟩] else []

/-- Wire role of a turn: `model → assistant`, anything else → `user`. -/
def turnRole (c : Content) : String :=
  if c.role = "model" then "assistant" else "user"

/-- `textContent` accumulated over a turn's parts. -/
def turnText (c : Content) : String :=
  c.parts.foldl (fun acc p => if p.text ≠ "" then acc ++ p.text else acc) ""

/-- `funcCalls` accumulated over a turn's parts, already in wire shape. -/
def turnCalls (c : Content) : List WireToolCall :=
  c.parts.foldl
    (fun acc p =>
      match p.functionCall with
      | some fc => acc ++ [⟨fc.id, "function", ⟨fc.name, fc.argsJson⟩⟩]
      | none => acc) []

/-- `funcResponses` accumulated over a turn's parts. -/
def turnResponses (c : Content) : List FuncResponse :=
  c.parts.foldl
    (fun acc p =>
      match p.functionResponse with
      | some fr => acc ++ [fr]
      | none => acc) []

/-- The `tool`-role message emitted for one function response. -/
def mkToolMsg (fr : FuncResponse) : ChatMessage :=
  ⟨"tool", fr.responseJson, none, fr.id⟩

/-- The merge test of the complete `convertToMessages`: the previous message
(if any) has the same role, a `nil` `ToolCalls`, and an empty `ToolCallID`. -/
def mergeable : Option ChatMessage → String → Prop
  | none, _ => False
  | some last, role => last.role = role ∧ last.toolCalls = none ∧ last.toolCallId = ""

instance : ∀ (o : Option ChatMessage) (r : String), Decidable (mergeable o r) := by
  intro o r
  cases o with
  | none => exact isFalse (fun h => h)
  | some last => exact inferInstanceAs (Decidable (_ ∧ _ ∧ _))

/-- Emitting a plain-text message in the complete version: merge into the
previous message by appending `"\n" + text` when `mergeable`, else append a
fresh message. -/
def emitText (role text : String) (msgs : List ChatMessage) : List ChatMessage :=
  match msgs.getLast? with
  | some last =>
    if mergeable (some last) role then
      msgs.dropLast ++ [{ last with content := last.content ++ "\n" ++ text }]
    else msgs ++ [⟨role, text, none, ""⟩]
  | none => msgs ++ [⟨role, text, none, ""⟩]

/-- One iteration of the complete `convertToMessages` loop body over
`req.Contents`. -/
def processTurn (msgs : List ChatMessage) (c : Content) : List ChatMessage :=
  let role := turnRole c
  let text := turnText c
  let calls := turnCalls c
  let resps := turnResponses c
  let msgs1 :=
    if calls ≠ [] then msgs ++ [⟨"assistant", text, some calls, ""⟩]
    else if text ≠ "" then emitText role text msgs
    else msgs
  msgs1 ++ resps.map mkToolMsg

/-- The synthetic assistant message inserted by the alternation repair. -/
def fillerMsg : ChatMessage := ⟨"assistant", "Action completed.", none, ""⟩

/-- One iteration of the alternation repair scan: before appending a `user`
message that would directly follow a `tool` message, insert `fillerMsg`. -/
def repairStep (acc : List ChatMessage) (msg : ChatMessage) : List ChatMessage :=
  let acc2 :=
    match acc.getLast? with
    | some last => if msg.role = "user" ∧ last.role = "tool" then acc ++ [fillerMsg] else acc
    | none => acc
  acc2 ++ [msg]

/-- The alternation repair pass of the complete `convertToMessages`. -/
def repairAlternation (msgs : List ChatMessage) : List ChatMessage :=
  msgs.foldl repairStep []

/-- The complete version of `convertToMessages` (merging + alternation
repair). -/
def convertToMessages (req : LLMRequest) : List ChatMessage :=
  repairAlternation (req.contents.foldl processTurn (sysMessages req))

/-- One iteration of the earlier, simpler `convertToMessages` loop body:
no merging. -/
def processTurnV1 (msgs : List ChatMessage) (c : Content) : List ChatMessage :=
  let role := turnRole c
  let text := turnText c
  let calls := turnCalls c
  let resps := turnResponses c
  let msgs1 :=
    if calls ≠ [] then msgs ++ [⟨"assistant", text, some calls, ""⟩]
    else if text ≠ "" then msgs ++ [⟨role, text, none, ""⟩]
    else msgs
  msgs1 ++ resps.map mkToolMsg

/-- The earlier, simpler version of `convertToMessages`: no merging, no
alternation repair. -/
def convertToMessagesV1 (req : LLMRequest) : List ChatMessage :=
  req.contents.foldl processTurnV1 (sysMessages req)

/-! ### Schema normalization (`normalizeSchema` / `fixSchemaMap`) -/

mutual

/-- Model of `fixSchemaMap`: lower-case every key and fix its value. -/
def fixSchemaMap : List (String × Json) → List (String × Json)
  | [] => []
  | (k, v) :: rest => (lowerStr k, fixSchemaVal (lowerStr k) v) :: fixSchemaMap rest

/-- Value handling of `fixSchemaMap`, switching on the (lower-cased) key and
the value's shape: strings under `type` are lower-cased, nested objects
recurse (`properties` preserving property names), everything else passes
through unchanged. -/
def fixSchemaVal : String → Json → Json
  | key, .str s => if key = "type" then .str (lowerStr s) else .str s
  | key, .obj m => if key = "properties" then .obj (fixProps m) else .obj (fixSchemaMap m)
  | _, v => v

/-- The `properties` branch of `fixSchemaMap`: keep each property name as-is;
normalize object-shaped property values, pass others through. -/
def fixProps : List (String × Json) → List (String × Json)
  | [] => []
  | (pk, .obj pm) :: rest => (pk, .obj (fixSchemaMap pm)) :: fixProps rest
  | (pk, pv) :: rest => (pk, pv) :: fixProps rest

end

/-- Model of `normalizeSchema`: the Go code marshals the schema and
unmarshals it into `map[string]interface{}`; that round trip succeeds exactly
when the schema is a JSON object, in which case `fixSchemaMap` is applied,
and otherwise the schema is returned unchanged. -/
def normalizeSchema : Json → Json
  | .obj m => .obj (fixSchemaMap m)
  | v => v

/-! ### Response decoding (`convertToLLMResponse`) -/

/-- Wire `choice` struct. -/
structure Choice where
  index : Int
  message : ChatMessage
  finishReason : String
deriving DecidableEq, Repr

/-- Wire `usage` struct. -/
structure Usage where
  promptTokens : Int
  completionTokens : Int
  totalTokens : Int
deriving DecidableEq, Repr

/-- Wire `chatResponse` struct. -/
structure ChatResponse where
  id : String
  choices : List Choice
  usage : Usage
deriving DecidableEq, Repr

/-- A decoded `genai.Part` as produced by the adapter: a text segment or a
function-call invocation with structured arguments. -/
inductive GenPart where
  | text : String → GenPart
  | functionCall : String → List (String × Json) → GenPart

/-- A decoded `genai.Content`. -/
structure GenContent where
  role : String
  parts : List GenPart

/-- Decoded usage metadata. -/
structure UsageMeta where
  promptTokenCount : Int
  candidatesTokenCount : Int
  totalTokenCount : Int
deriving DecidableEq, Repr

/-- The slice of `model.LLMResponse` the adapter fills in. -/
structure LLMResponse where
  content : Option GenContent := none
  usageMetadata : Option UsageMeta := none

/-- Model of `json.Unmarshal(text, &args)` for
`args : map[string]interface{}`: the stdlib parser is abstracted as an
oracle `parse`; a parse failure or a non-object result leaves `args` empty. -/
def goUnmarshalObj (parse : String → Option Json) (s : String) : List (String × Json) :=
  match parse s with
  | some (.obj m) => m
  | _ => []

/-- Model of `convertToLLMResponse`, with the stdlib JSON parser abstracted
as `parse`. -/
def convertToLLMResponse (parse : String → Option Json) (chatResp : ChatResponse) :
    LLMResponse :=
  match chatResp.choices with
  | [] => {}
  | choice :: _ =>
    let textParts : List GenPart :=
      if choice.message.content ≠ "" then [.text choice.message.content] else []
    let parts := textParts ++
      (choice.message.toolCalls.getD []).map
        (fun tc => .functionCall tc.function.name (goUnmarshalObj parse tc.function.arguments))
    { content := some ⟨"model", parts⟩
      usageMetadata := some ⟨chatResp.usage.promptTokens, chatResp.usage.completionTokens,
        chatResp.usage.totalTokens⟩ }

/-! ### Predicates used by the claims -/

/-- The alternation property: a `user` message never directly follows a
`tool` message. -/
abbrev noToolUserAdj (a b : ChatMessage) : Prop :=
  ¬(a.role = "tool" ∧ b.role = "user")

/-- Adjacency that would trigger the merge branch of the complete
`convertToMessages`: a plain-text message (no tool calls, no tool-call id)
directly follows a message of the same role with no tool metadata. -/
abbrev noMergeAdj (a b : ChatMessage) : Prop :=
  ¬(b.toolCalls = none ∧ b.toolCallId = "" ∧ a.role = b.role ∧
    a.toolCalls = none ∧ a.toolCallId = "")

/-- `m`, read in context with the messages `seen` before it, references a
prior tool-call entry: if `m` is `tool`-role, its `toolCallId` is the id of
an entry in the `toolCalls` list of some preceding assistant message. -/
def refsPriorCall (seen : List ChatMessage) (m : ChatMessage) : Prop :=
  m.role = "tool" →
    ∃ m' ∈ seen, m'.role = "assistant" ∧
      ∃ tcs, m'.toolCalls = some tcs ∧ m.toolCallId ∈ tcs.map WireToolCall.id

/-- Every `tool`-role message of the sequence references a prior tool-call
entry. -/
def toolCallsLinked (msgs : List ChatMessage) : Prop :=
  ∀ pre m suf, msgs = pre ++ m :: suf → refsPriorCall pre m

/-- The ids of the function calls carried by one turn. -/
def callIds (c : Content) : List String :=
  (turnCalls c).map WireToolCall.id

/-- All function-call ids carried by a list of turns. -/
def callIdsAll (cs : List Content) : List String :=
  cs.foldl (fun acc c => acc ++ callIds c) []

/-- A request is well-formed when every function response's id is the id of a
function call carried by the same turn or an earlier turn. -/
def wellFormedReq (req : LLMRequest) : Prop :=
  ∀ pre c suf, req.contents = pre ++ c :: suf →
    ∀ fr ∈ turnResponses c, fr.id ∈ callIdsAll (pre ++ [c])

/-- A turn carrying non-empty text, no function calls and no function
responses. -/
def plainTurn (c : Content) : Prop :=
  turnCalls c = [] ∧ turnResponses c = [] ∧ turnText c ≠ ""

/-- The two intents other than the given one, in canonical order. -/
def othersOf : Intent → Intent × Intent
  | sqlQuery => (visualization, general)
  | visualization => (sqlQuery, general)
  | general => (sqlQuery, visualization)

/-- The adjusted score map attains its maximum at a single intent. -/
def uniqueMax (sc : Intent → ℚ) : Prop :=
  (sc visualization < sc sqlQuery ∧ sc general < sc sqlQuery) ∨
  (sc sqlQuery < sc visualization ∧ sc general < sc visualization) ∨
  (sc sqlQuery < sc general ∧ sc visualization < sc general)

/-! ## Infrastructure lemmas -/

theorem startsWithL_iff (p : List Char) : ∀ s, startsWithL p s = true ↔ p <+: s := by
  induction p with
  | nil => intro s; simp [startsWithL]
  | cons a as ih =>
    intro s
    cases s with
    | nil => simp [startsWithL]
    | cons b bs => simp [startsWithL, List.cons_prefix_cons, ih]

theorem containsL_iff (n : List Char) : ∀ h, containsL n h = true ↔ n <:+: h := by
  intro h
  induction h with
  | nil => simp [containsL, List.isEmpty_iff]
  | cons c cs ih => simp [containsL, startsWithL_iff, ih, List.infix_cons_iff]

theorem strContains_iff (s sub : String) : strContains s sub = true ↔ sub.data <:+: s.data := by
  simp [strContains, containsL_iff]

/-- Substring containment is transitive, matching Go `strings.Contains`. -/
theorem strContains_trans {s a b : String} (h1 : strContains s a = true)
    (h2 : strContains a b = true) : strContains s b = true := by
  rw [strContains_iff] at h1 h2 ⊢
  exact h2.trans h1

theorem keywordScore_of_not_contains {ql : String} {ws : List String} {acc : ℚ} {kw : String}
    (h : strContains ql kw = false) : keywordScore ql ws acc kw = acc := by
  simp [keywordScore, h]

theorem foldl_keywordScore_of_none {ql : String} {ws : List String} {kws : List String}
    (h : ∀ kw ∈ kws, strContains ql kw = false) :
    ∀ a : ℚ, kws.foldl (keywordScore ql ws) a = a := by
  induction kws with
  | nil => intro a; rfl
  | cons k ks ih =>
    intro a
    rw [List.foldl_cons, keywordScore_of_not_contains (h k (by simp))]
    exact ih (fun kw hkw => h kw (by simp [hkw])) a

/-- A vocabulary none of whose keywords occurs in the query scores `0`. -/
theorem rawScore_of_none {ql : String} {ws : List String} {kws : List String}
    (h : ∀ kw ∈ kws, strContains ql kw = false) : rawScore ql ws kws = 0 := by
  rw [rawScore, foldl_keywordScore_of_none h, zero_div]

/-- When no visualization keyword occurs in the (lower-cased) query, the
adjusted visualization score is `0`: the raw score is `0` and no heuristic
bump can fire for `visualization`. -/
theorem adjusted_viz_zero {q : String}
    (h : ∀ kw ∈ vizKeywords, strContains (lowerStr q) kw = false) :
    adjustedScores q visualization = 0 := by
  have h1 : containsAny (lowerStr q) ["chart", "graph", "plot", "visualize"] = false := by
    simp only [containsAny, List.any_eq_false]
    intro x hx
    have hm : x ∈ vizKeywords := by
      simp only [List.mem_cons, List.not_mem_nil, or_false] at hx
      rcases hx with rfl | rfl | rfl | rfl <;> simp [vizKeywords]
    simp [h x hm]
  have h3 : containsAny (lowerStr q) ["chart", "graph"] = false := by
    simp only [containsAny, List.any_eq_false]
    intro x hx
    have hm : x ∈ vizKeywords := by
      simp only [List.mem_cons, List.not_mem_nil, or_false] at hx
      rcases hx with rfl | rfl <;> simp [vizKeywords]
    simp [h x hm]
  have hbase : rawScore (lowerStr q) (goFields (lowerStr q)) vizKeywords = 0 :=
    rawScore_of_none h
  simp only [adjustedScores, applyHeuristics, h1, h3, Bool.and_false, Bool.false_eq_true,
    if_false]
  split <;> split <;> simp [bump, keywordsOf, hbase]

/-- The best-intent fold either keeps its initial state or selects a listed
intent with strictly positive score (given a nonnegative initial score). -/
theorem pickBest_foldl_cases (sc : Intent → ℚ) (o : List Intent) :
    ∀ p : Intent × ℚ, 0 ≤ p.2 →
      o.foldl (bestStep sc) p = p ∨
      ∃ i ∈ o, o.foldl (bestStep sc) p = (i, sc i) ∧ 0 < sc i := by
  induction o with
  | nil => intro p _; left; rfl
  | cons j js ih =>
    intro p hp
    rw [List.foldl_cons]
    by_cases hj : sc j > p.2
    · have hpos : 0 < sc j := lt_of_le_of_lt hp hj
      rw [bestStep, if_pos hj]
      rcases ih (j, sc j) (le_of_lt hpos) with heq | ⟨i, hi, heq, hip⟩
      · right; exact ⟨j, by simp, heq, hpos⟩
      · right; exact ⟨i, by simp [hi], heq, hip⟩
    · rw [bestStep, if_neg hj]
      rcases ih p hp with heq | ⟨i, hi, heq, hip⟩
      · left; exact heq
      · right; exact ⟨i, by simp [hi], heq, hip⟩

/-- If the adjusted visualization score is `0`, `Classify` never returns
`Visualization`, under any map-enumeration order. -/
theorem classifyOrd_ne_viz {q : String} {o : List Intent}
    (h : adjustedScores q visualization = 0) : classifyOrd o q ≠ visualization := by
  have hmain := pickBest_foldl_cases (adjustedScores q) o (general, 0) (le_refl 0)
  simp only [classifyOrd, pickBest]
  rcases hmain with heq | ⟨i, _, heq, hip⟩
  · rw [heq]
    split <;> exact fun hx => Intent.noConfusion hx
  · rw [heq]
    split
    · exact fun hx => Intent.noConfusion hx
    · rintro rfl
      rw [h] at hip
      exact lt_irrefl 0 hip

/-! ## Claim C4 -/

section ConcreteEval

attribute [local semireducible] Rat.add Rat.sub Rat.mul Rat.inv

/-- C4 (as stated) is false: the query `"select"` contains `"select"` and no
visualization-vocabulary keyword, yet `Classify` returns `General` under
every possible map-enumeration order, because the adjusted SQL score
`2/23 ≈ 0.087` falls below the `0.1` threshold. -/
theorem c4_counterexample :
    allOrders.map (fun o => classifyOrd o "select") = List.replicate 6 general ∧
    strContains (lowerStr "select") "select" = true ∧
    vizKeywords.all (fun kw => !(strContains (lowerStr "select") kw)) = true := by
  exact ⟨by decide, by decide, by decide⟩

end ConcreteEval

/-- C4 (amended): for every query whose lower-casing contains `"select"`,
`"schema"` or `"table"` and contains no visualization-vocabulary keyword as a
substring, `Classify` returns `SQLQuery` or `General` (never
`Visualization`), under every map-enumeration order. -/
theorem c4_sql_vocab_classify (q : String) (o : List Intent)
    (_hsql : strContains (lowerStr q) "select" = true ∨
            strContains (lowerStr q) "schema" = true ∨
            strContains (lowerStr q) "table" = true)
    (hviz : ∀ kw ∈ vizKeywords, strContains (lowerStr q) kw = false) :
    classifyOrd o q = sqlQuery ∨ classifyOrd o q = general := by
  have hne := classifyOrd_ne_viz (o := o) (adjusted_viz_zero hviz)
  cases hc : classifyOrd o q with
  | sqlQuery => exact Or.inl rfl
  | visualization => exact absurd hc hne
  | general => exact Or.inr rfl

/-- Witness for C4 (amended) at the query `"show me the table"`. -/
theorem c4_sql_vocab_classify_witness :
    classifyOrd stdOrder "show me the table" = sqlQuery ∨
    classifyOrd stdOrder "show me the table" = general :=
  c4_sql_vocab_classify "show me the table" stdOrder
    (Or.inr (Or.inr (by decide))) (by decide)

/-! ## Claim C6 -/

/-- The best/second-best fold keeps `0 ≤ secondScore ≤ maxScore`. -/
theorem pickBest2_foldl_invariant (sc : Intent → ℚ) (o : List Intent) :
    ∀ p : Intent × ℚ × ℚ, 0 ≤ p.2.2 → p.2.2 ≤ p.2.1 →
      0 ≤ (o.foldl (best2Step sc) p).2.2 ∧
      (o.foldl (best2Step sc) p).2.2 ≤ (o.foldl (best2Step sc) p).2.1 := by
  induction o with
  | nil => intro p h1 h2; exact ⟨h1, h2⟩
  | cons j js ih =>
    intro p h1 h2
    rw [List.foldl_cons]
    by_cases hj : sc j > p.2.1
    · rw [best2Step, if_pos hj]
      exact ih (j, sc j, p.2.1) (le_trans h1 h2) (le_of_lt hj)
    · rw [best2Step, if_neg hj]
      by_cases hj2 : sc j > p.2.2
      · rw [if_pos hj2]
        exact ih (p.1, p.2.1, sc j) (le_of_lt (lt_of_le_of_lt h1 hj2)) (not_lt.mp hj)
      · rw [if_neg hj2]
        exact ih p h1 h2

/-- If every adjusted score is nonpositive, the best/second-best fold never
moves from its initial state. -/
theorem pickBest2_foldl_nonpos {sc : Intent → ℚ} (h : ∀ i, sc i ≤ 0) (o : List Intent) :
    o.foldl (best2Step sc) (general, 0, 0) = (general, 0, 0) := by
  induction o with
  | nil => rfl
  | cons j js ih =>
    rw [List.foldl_cons]
    have hst : best2Step sc (general, 0, 0) j = (general, 0, 0) := by
      simp [best2Step, not_lt.mpr (h j)]
    rw [hst, ih]

/-- If no vocabulary keyword and neither `"schema"` nor `"column"` occurs in
the lower-cased query, every adjusted score is `0`. -/
theorem adjusted_all_zero {q : String}
    (hall : ∀ kw ∈ sqlKeywords ++ vizKeywords ++ generalKeywords,
      strContains (lowerStr q) kw = false)
    (hschema : strContains (lowerStr q) "schema" = false)
    (hcolumn : strContains (lowerStr q) "column" = false) :
    ∀ i, adjustedScores q i = 0 := by
  have hsql : ∀ kw ∈ sqlKeywords, strContains (lowerStr q) kw = false :=
    fun kw hk => hall kw (by simp [hk])
  have hviz : ∀ kw ∈ vizKeywords, strContains (lowerStr q) kw = false :=
    fun kw hk => hall kw (by simp [hk])
  have hgen : ∀ kw ∈ generalKeywords, strContains (lowerStr q) kw = false :=
    fun kw hk => hall kw (by simp [hk])
  have hno : ∀ long short : String, strContains long short = true →
      strContains (lowerStr q) short = false → strContains (lowerStr q) long = false := by
    intro long short hsub hshort
    rw [Bool.eq_false_iff]
    intro hlong
    rw [strContains_trans hlong hsub] at hshort
    cases hshort
  have h1 : containsAny (lowerStr q) ["chart", "graph", "plot", "visualize"] = false := by
    simp only [containsAny, List.any_eq_false]
    intro x hx
    have hm : x ∈ vizKeywords := by
      simp only [List.mem_cons, List.not_mem_nil, or_false] at hx
      rcases hx with rfl | rfl | rfl | rfl <;> simp [vizKeywords]
    simp [hviz x hm]
  have h2 : containsAny (lowerStr q) ["table", "schema", "column", "database"] = false := by
    simp only [containsAny, List.any_eq_false]
    intro x hx
    simp only [List.mem_cons, List.not_mem_nil, or_false] at hx
    rcases hx with rfl | rfl | rfl | rfl
    · simp [hsql "table" (by simp [sqlKeywords])]
    · simp [hschema]
    · simp [hcolumn]
    · simp [hsql "database" (by simp [sqlKeywords])]
  have h3 : containsAny (lowerStr q) ["chart", "graph"] = false := by
    simp only [containsAny, List.any_eq_false]
    intro x hx
    have hm : x ∈ vizKeywords := by
      simp only [List.mem_cons, List.not_mem_nil, or_false] at hx
      rcases hx with rfl | rfl <;> simp [vizKeywords]
    simp [hviz x hm]
  have h4 : containsAny (lowerStr q) ["in the database", "in the table", "records", "rows"]
      = false := by
    simp only [containsAny, List.any_eq_false]
    intro x hx
    simp only [List.mem_cons, List.not_mem_nil, or_false] at hx
    rcases hx with rfl | rfl | rfl | rfl
    · simp [hno "in the database" "database" (by decide)
        (hsql "database" (by simp [sqlKeywords]))]
    · simp [hno "in the table" "table" (by decide) (hsql "table" (by simp [sqlKeywords]))]
    · simp [hsql "records" (by simp [sqlKeywords])]
    · simp [hsql "rows" (by simp [sqlKeywords])]
  intro i
  simp only [adjustedScores, applyHeuristics, h1, h2, h3, h4, Bool.and_false,
    Bool.false_eq_true, if_false]
  cases i
  · exact rawScore_of_none hsql
  · exact rawScore_of_none hviz
  · exact rawScore_of_none hgen

/-- C6 (amended): for every query and map-enumeration order,
`ClassifyWithConfidence` returns a confidence in `[0,1]`; and whenever no
keyword from any of the three vocabularies occurs as a substring of the
lower-cased query **and neither `"schema"` nor `"column"` occurs** (the two
heuristic triggers that are not also vocabulary keywords), it returns
`(General, 0)`. -/
theorem c6_confidence_range_and_default (q : String) (o : List Intent) :
    (0 ≤ (classifyWithConfidenceOrd o q).2 ∧ (classifyWithConfidenceOrd o q).2 ≤ 1) ∧
    ((∀ kw ∈ sqlKeywords ++ vizKeywords ++ generalKeywords,
        strContains (lowerStr q) kw = false) →
      strContains (lowerStr q) "schema" = false →
      strContains (lowerStr q) "column" = false →
      classifyWithConfidenceOrd o q = (general, 0)) := by
  constructor
  · obtain ⟨h1, h2⟩ :=
      pickBest2_foldl_invariant (adjustedScores q) o (general, 0, 0) (le_refl 0) (le_refl 0)
    simp only [classifyWithConfidenceOrd, pickBest2]
    split
    · exact ⟨le_refl 0, by norm_num⟩
    · simp only
      split
      · rename_i hpos
        split
        · constructor
          · exact div_nonneg (sub_nonneg.mpr h2) (le_of_lt hpos)
          · rw [div_le_one hpos]
            linarith
        · exact ⟨le_min (le_of_lt hpos) zero_le_one, min_le_right _ _⟩
      · exact ⟨le_refl 0, by norm_num⟩
  · intro hall hschema hcolumn
    have hz := adjusted_all_zero hall hschema hcolumn
    simp only [classifyWithConfidenceOrd, pickBest2]
    rw [pickBest2_foldl_nonpos (fun i => le_of_eq (hz i)) o]
    norm_num

/-- Witness for C6 (amended) at the query `"zzz"`. -/
theorem c6_confidence_range_and_default_witness :
    (0 ≤ (classifyWithConfidenceOrd stdOrder "zzz").2 ∧
      (classifyWithConfidenceOrd stdOrder "zzz").2 ≤ 1) ∧
    classifyWithConfidenceOrd stdOrder "zzz" = (general, 0) :=
  ⟨(c6_confidence_range_and_default "zzz" stdOrder).1,
   (c6_confidence_range_and_default "zzz" stdOrder).2 (by decide) (by decide) (by decide)⟩

section ConcreteEvalC6

attribute [local semireducible] Rat.add Rat.sub Rat.mul Rat.inv

/-- C6 (as stated) is false: no keyword from any vocabulary occurs as a
substring of `"schema"`, yet `ClassifyWithConfidence` returns
`(SQLQuery, 1/2)` (the database-structure heuristic alone pushes the SQL
score to `0.5`), under every possible map-enumeration order — not
`(General, 0)`. -/
theorem c6_counterexample :
    allOrders.map (fun o => classifyWithConfidenceOrd o "schema") =
      List.replicate 6 (sqlQuery, 1/2) ∧
    (sqlKeywords ++ vizKeywords ++ generalKeywords).all
      (fun kw => !(strContains (lowerStr "schema") kw)) = true := by
  exact ⟨by decide, by decide⟩

end ConcreteEvalC6

/-! ## Claim C5 -/

/-- With a strictly dominant intent `i` of positive score, the
best/second-best scan over any enumeration of the three intents yields `i`,
its score, and the larger of the two remaining scores (floored at the
initial `0`) — independently of the enumeration order. -/
theorem pickBest2_three (sc : Intent → ℚ) (i j k : Intent)
    (hpos : 0 < sc i) (hj : sc j < sc i) (hk : sc k < sc i) :
    ∀ o, (o = [i, j, k] ∨ o = [i, k, j] ∨ o = [j, i, k] ∨
          o = [k, i, j] ∨ o = [j, k, i] ∨ o = [k, j, i]) →
      pickBest2 o sc = (i, sc i, max 0 (max (sc j) (sc k))) := by
  rintro o (rfl | rfl | rfl | rfl | rfl | rfl) <;>
    simp only [pickBest2, List.foldl_cons, List.foldl_nil, best2Step] <;>
    split_ifs <;>
    simp_all only [Prod.mk.injEq, gt_iff_lt, not_lt]
  all_goals repeat' apply And.intro
  all_goals
    first
      | rfl
      | trivial
      | (exfalso; linarith)
      | (simp only [max_def]; split_ifs <;> first | rfl | linarith)

/-- The best-intent scan is the first two components of the
best/second-best scan (the second-best accumulator never feeds back). -/
theorem pickBest_foldl_proj (sc : Intent → ℚ) (o : List Intent) :
    ∀ (b : Intent) (m s : ℚ),
      o.foldl (bestStep sc) (b, m) =
        ((o.foldl (best2Step sc) (b, m, s)).1, (o.foldl (best2Step sc) (b, m, s)).2.1) := by
  induction o with
  | nil => intro b m s; rfl
  | cons x xs ih =>
    intro b m s
    rw [List.foldl_cons, List.foldl_cons]
    by_cases hx : sc x > m
    · rw [bestStep, best2Step, if_pos hx, if_pos hx]
      exact ih x (sc x) m
    · rw [bestStep, best2Step, if_neg hx, if_neg hx]
      by_cases hx2 : sc x > s
      · rw [if_pos hx2]
        exact ih b m (sc x)
      · rw [if_neg hx2]
        exact ih b m s

theorem pickBest_eq (o : List Intent) (sc : Intent → ℚ) :
    pickBest o sc = ((pickBest2 o sc).1, (pickBest2 o sc).2.1) :=
  pickBest_foldl_proj sc o general 0 0

theorem pickBest2_nonpos_eq {sc : Intent → ℚ} (h : ∀ i, sc i ≤ 0) (o : List Intent) :
    pickBest2 o sc = (general, 0, 0) :=
  pickBest2_foldl_nonpos h o

/-- C5 (amended): the classifier is deterministic for each fixed
map-enumeration order, and whenever the maximum adjusted score is uniquely
attained the results of `Classify` and `ClassifyWithConfidence` do not
depend on the enumeration order at all.  (At ties the returned intent does
depend on the order, which Go's map iteration leaves unspecified — see the
counterexample.) -/
theorem c5_order_independent (q : String) (o1 o2 : List Intent)
    (h1 : o1 ∈ allOrders) (h2 : o2 ∈ allOrders) (hu : uniqueMax (adjustedScores q)) :
    classifyOrd o1 q = classifyOrd o2 q ∧
    classifyWithConfidenceOrd o1 q = classifyWithConfidenceOrd o2 q := by
  rcases hu with ⟨ha, hb⟩ | ⟨ha, hb⟩ | ⟨ha, hb⟩
  · by_cases hpos : 0 < adjustedScores q sqlQuery
    · have hshape : ∀ o ∈ allOrders,
          o = [sqlQuery, visualization, general] ∨
          o = [sqlQuery, general, visualization] ∨
          o = [visualization, sqlQuery, general] ∨
          o = [general, sqlQuery, visualization] ∨
          o = [visualization, general, sqlQuery] ∨
          o = [general, visualization, sqlQuery] := by decide
      have e1 := pickBest2_three (adjustedScores q) sqlQuery visualization general
        hpos ha hb o1 (hshape o1 h1)
      have e2 := pickBest2_three (adjustedScores q) sqlQuery visualization general
        hpos ha hb o2 (hshape o2 h2)
      exact ⟨by simp only [classifyOrd, pickBest_eq, e1, e2],
             by simp only [classifyWithConfidenceOrd, e1, e2]⟩
    · have hall : ∀ x : Intent, adjustedScores q x ≤ 0 := by
        have hni := not_lt.mp hpos
        intro x
        cases x <;> linarith
      have e1 := pickBest2_nonpos_eq hall o1
      have e2 := pickBest2_nonpos_eq hall o2
      exact ⟨by simp only [classifyOrd, pickBest_eq, e1, e2],
             by simp only [classifyWithConfidenceOrd, e1, e2]⟩
  · by_cases hpos : 0 < adjustedScores q visualization
    · have hshape : ∀ o ∈ allOrders,
          o = [visualization, sqlQuery, general] ∨
          o = [visualization, general, sqlQuery] ∨
          o = [sqlQuery, visualization, general] ∨
          o = [general, visualization, sqlQuery] ∨
          o = [sqlQuery, general, visualization] ∨
          o = [general, sqlQuery, visualization] := by decide
      have e1 := pickBest2_three (adjustedScores q) visualization sqlQuery general
        hpos ha hb o1 (hshape o1 h1)
      have e2 := pickBest2_three (adjustedScores q) visualization sqlQuery general
        hpos ha hb o2 (hshape o2 h2)
      exact ⟨by simp only [classifyOrd, pickBest_eq, e1, e2],
             by simp only [classifyWithConfidenceOrd, e1, e2]⟩
    · have hall : ∀ x : Intent, adjustedScores q x ≤ 0 := by
        have hni := not_lt.mp hpos
        intro x
        cases x <;> linarith
      have e1 := pickBest2_nonpos_eq hall o1
      have e2 := pickBest2_nonpos_eq hall o2
      exact ⟨by simp only [classifyOrd, pickBest_eq, e1, e2],
             by simp only [classifyWithConfidenceOrd, e1, e2]⟩
  · by_cases hpos : 0 < adjustedScores q general
    · have hshape : ∀ o ∈ allOrders,
          o = [general, sqlQuery, visualization] ∨
          o = [general, visualization, sqlQuery] ∨
          o = [sqlQuery, general, visualization] ∨
          o = [visualization, general, sqlQuery] ∨
          o = [sqlQuery, visualization, general] ∨
          o = [visualization, sqlQuery, general] := by decide
      have e1 := pickBest2_three (adjustedScores q) general sqlQuery visualization
        hpos ha hb o1 (hshape o1 h1)
      have e2 := pickBest2_three (adjustedScores q) general sqlQuery visualization
        hpos ha hb o2 (hshape o2 h2)
      exact ⟨by simp only [classifyOrd, pickBest_eq, e1, e2],
             by simp only [classifyWithConfidenceOrd, e1, e2]⟩
    · have hall : ∀ x : Intent, adjustedScores q x ≤ 0 := by
        have hni := not_lt.mp hpos
        intro x
        cases x <;> linarith
      have e1 := pickBest2_nonpos_eq hall o1
      have e2 := pickBest2_nonpos_eq hall o2
      exact ⟨by simp only [classifyOrd, pickBest_eq, e1, e2],
             by simp only [classifyWithConfidenceOrd, e1, e2]⟩

section ConcreteEvalC5

attribute [local semireducible] Rat.add Rat.sub Rat.mul Rat.inv

/-- C5 (as stated) is false on the code: at the tie query
`"help what schema"` the SQL and General adjusted scores are both `1/2`,
and the returned intent depends on the enumeration order of the Go score
map, which the runtime leaves unspecified — two invocations of `Classify`
(or `ClassifyWithConfidence`) on this query may return different intents. -/
theorem c5_counterexample :
    classifyOrd [sqlQuery, visualization, general] "help what schema" = sqlQuery ∧
    classifyOrd [general, visualization, sqlQuery] "help what schema" = general ∧
    classifyWithConfidenceOrd [sqlQuery, visualization, general] "help what schema" =
      (sqlQuery, 0) ∧
    classifyWithConfidenceOrd [general, visualization, sqlQuery] "help what schema" =
      (general, 0) ∧
    adjustedScores "help what schema" sqlQuery = adjustedScores "help what schema" general := by
  exact ⟨by decide, by decide, by decide, by decide, by decide⟩

/-- Witness for C5 (amended) at the query `"chart"` (unique maximum at
`Visualization`). -/
theorem c5_order_independent_witness :
    classifyOrd stdOrder "chart" = classifyOrd [general, visualization, sqlQuery] "chart" ∧
    classifyWithConfidenceOrd stdOrder "chart" =
      classifyWithConfidenceOrd [general, visualization, sqlQuery] "chart" :=
  c5_order_independent "chart" stdOrder [general, visualization, sqlQuery]
    (by decide) (by decide) (Or.inr (Or.inl (by decide)))

end ConcreteEvalC5

/-! ## Claim C9 -/

/-- C9: decoding a wire response whose `choices` list is empty produces an
empty decoded result — no content (hence no text segments and no tool
invocations) and no usage metadata — rather than an error; the decoder is a
total function. -/
theorem c9_empty_choices (parse : String → Option Json) (id : String) (us : Usage) :
    convertToLLMResponse parse ⟨id, [], us⟩ = { content := none, usageMetadata := none } :=
  rfl

/-! ## Claim C8 -/

/-- C8: when decoding a response, every tool call whose argument text does
not parse yields an invocation with an empty arguments object, and the rest
of the decode still completes: the decoded content carries exactly one part
per non-empty text plus one per tool call. -/
theorem c8_bad_args_degrade (parse : String → Option Json) (resp : ChatResponse)
    (ch : Choice) (rest : List Choice) (hc : resp.choices = ch :: rest) :
    (∀ tc ∈ ch.message.toolCalls.getD [], parse tc.function.arguments = none →
      GenPart.functionCall tc.function.name [] ∈
        ((convertToLLMResponse parse resp).content.getD ⟨"model", []⟩).parts) ∧
    (convertToLLMResponse parse resp).content.map (fun c => c.parts.length) =
      some ((if ch.message.content ≠ "" then 1 else 0) +
        (ch.message.toolCalls.getD []).length) := by
  constructor
  · intro tc htc hparse
    simp only [convertToLLMResponse, hc, Option.getD_some]
    refine List.mem_append_right _ (List.mem_map.mpr ⟨tc, htc, ?_⟩)
    simp [goUnmarshalObj, hparse]
  · simp only [convertToLLMResponse, hc, Option.map_some', List.length_append, List.length_map]
    split <;> simp_all

/-- Witness for C8: a response with one tool call whose argument text `"oops"`
fails to parse decodes to a single invocation with empty arguments. -/
theorem c8_bad_args_degrade_witness :
    (GenPart.functionCall "f" [] ∈
      ((convertToLLMResponse (fun _ => none)
          ⟨"id", [⟨0, ⟨"assistant", "", some [⟨"1", "function", ⟨"f", "oops"⟩⟩], ""⟩, "stop"⟩],
            ⟨0, 0, 0⟩⟩).content.getD ⟨"model", []⟩).parts) ∧
    (convertToLLMResponse (fun _ => none)
        ⟨"id", [⟨0, ⟨"assistant", "", some [⟨"1", "function", ⟨"f", "oops"⟩⟩], ""⟩, "stop"⟩],
          ⟨0, 0, 0⟩⟩).content.map (fun c => c.parts.length) = some 1 := by
  have h := c8_bad_args_degrade (fun _ => none)
    ⟨"id", [⟨0, ⟨"assistant", "", some [⟨"1", "function", ⟨"f", "oops"⟩⟩], ""⟩, "stop"⟩],
      ⟨0, 0, 0⟩⟩
    ⟨0, ⟨"assistant", "", some [⟨"1", "function", ⟨"f", "oops"⟩⟩], ""⟩, "stop"⟩ [] rfl
  exact ⟨h.1 ⟨"1", "function", ⟨"f", "oops"⟩⟩ (by simp) rfl, by simpa using h.2⟩

/-! ## Claim C3 -/

/-- C3: schema normalization lower-cases every object key, additionally
lower-cases the string value under a key whose lower-cased form is `type`,
recurses into nested objects, preserves the case of property names directly
under a `properties` key while normalizing each property's object value,
passes arrays and scalars through unchanged, and maps the example
`{"Type":"object","Properties":{"Foo":{"Type":"string"}}}` to
`{"type":"object","properties":{"Foo":{"type":"string"}}}`. -/
theorem c3_schema_normalization :
    normalizeSchema (.obj [("Type", .str "object"),
        ("Properties", .obj [("Foo", .obj [("Type", .str "string")])])]) =
      .obj [("type", .str "object"),
        ("properties", .obj [("Foo", .obj [("type", .str "string")])])] ∧
    (∀ m : List (String × Json),
      (fixSchemaMap m).map Prod.fst = m.map (fun e => lowerStr e.1)) ∧
    (∀ props : List (String × Json),
      (fixProps props).map Prod.fst = props.map Prod.fst) ∧
    (∀ s, fixSchemaVal "type" (.str s) = .str (lowerStr s)) ∧
    (∀ k s, k ≠ "type" → fixSchemaVal k (.str s) = .str s) ∧
    (∀ k m, k ≠ "properties" → fixSchemaVal k (.obj m) = .obj (fixSchemaMap m)) ∧
    (∀ m, fixSchemaVal "properties" (.obj m) = .obj (fixProps m)) ∧
    (∀ k xs, fixSchemaVal k (.arr xs) = .arr xs) ∧
    (∀ k r, fixSchemaVal k (.num r) = .num r) ∧
    (∀ k b, fixSchemaVal k (.bool b) = .bool b) ∧
    (∀ k, fixSchemaVal k .null = .null) := by
  refine ⟨rfl, ?_, ?_, fun s => rfl, ?_, ?_, fun m => rfl, fun k xs => rfl,
    fun k r => rfl, fun k b => rfl, fun k => rfl⟩
  · intro m
    induction m with
    | nil => rfl
    | cons e rest ih => simp [fixSchemaMap, ih]
  · intro props
    induction props with
    | nil => rfl
    | cons e rest ih =>
      obtain ⟨pk, pv⟩ := e
      cases pv <;> simp [fixProps, ih]
  · intro k s hk
    simp [fixSchemaVal, hk]
  · intro k m hk
    simp [fixSchemaVal, hk]

/-- Witness for C3, discharging the two conditional conjuncts at the key
`"description"`. -/
theorem c3_schema_normalization_witness :
    fixSchemaVal "description" (.str "The SQL query to execute") =
      .str "The SQL query to execute" ∧
    fixSchemaVal "items" (.obj [("Type", .str "string")]) =
      .obj (fixSchemaMap [("Type", .str "string")]) :=
  ⟨(c3_schema_normalization.2.2.2.2.1) "description" "The SQL query to execute" (by decide),
   (c3_schema_normalization.2.2.2.2.2.1) "items" [("Type", .str "string")] (by decide)⟩

/-! ## Claim C2 -/

/-- One repair step preserves the alternation property. -/
theorem repairStep_chain {acc : List ChatMessage} {msg : ChatMessage}
    (h : List.Chain' noToolUserAdj acc) :
    List.Chain' noToolUserAdj (repairStep acc msg) := by
  unfold repairStep
  split
  next last hlast =>
    split
    next hcond =>
      rw [List.append_assoc, List.singleton_append]
      refine List.Chain'.append h ?_ ?_
      · rw [List.chain'_pair]
        intro hf
        exact absurd hf.1 (by decide)
      · intro x hx y hy
        rw [hlast] at hx
        simp only [Option.mem_def, Option.some.injEq] at hx
        simp only [List.head?_cons, Option.mem_def, Option.some.injEq] at hy
        subst hx; subst hy
        intro hf
        exact absurd hf.2 (by decide)
    next hcond =>
      refine List.Chain'.append h (List.chain'_singleton msg) ?_
      intro x hx y hy
      rw [hlast] at hx
      simp only [Option.mem_def, Option.some.injEq] at hx
      simp only [List.head?_cons, Option.mem_def, Option.some.injEq] at hy
      subst hx; subst hy
      intro hf
      exact hcond ⟨hf.2, hf.1⟩
  next hlast =>
    have hacc : acc = [] := by
      cases acc with
      | nil => rfl
      | cons a as => simp at hlast
    subst hacc
    exact List.chain'_singleton msg

/-- The repair pass always outputs an alternation-clean sequence. -/
theorem repairAlternation_chain (msgs : List ChatMessage) :
    List.Chain' noToolUserAdj (repairAlternation msgs) := by
  suffices h : ∀ acc, List.Chain' noToolUserAdj acc →
      List.Chain' noToolUserAdj (msgs.foldl repairStep acc) from h [] List.chain'_nil
  induction msgs with
  | nil => intro acc h; exact h
  | cons m rest ih =>
    intro acc h
    rw [List.foldl_cons]
    exact ih _ (repairStep_chain h)

/-- C2: after the alternation repair pass, the adapter's final message
sequence never has a `user`-role message immediately following a `tool`-role
message (for every request); and whenever the scan is about to append a
`user` message directly after a `tool` message, it inserts the synthetic
assistant `fillerMsg` strictly between them. -/
theorem c2_alternation_repaired :
    (∀ req : LLMRequest, List.Chain' noToolUserAdj (convertToMessages req)) ∧
    (∀ (acc : List ChatMessage) (msg last : ChatMessage),
      acc.getLast? = some last → last.role = "tool" → msg.role = "user" →
      repairStep acc msg = acc ++ [fillerMsg, msg]) := by
  constructor
  · intro req
    exact repairAlternation_chain _
  · intro acc msg last hl ht hu
    simp [repairStep, hl, ht, hu]

/-- Witness for C2 at a two-message scenario: a `tool` message followed by a
`user` message gets the synthetic assistant inserted between them. -/
theorem c2_alternation_repaired_witness :
    repairStep [⟨"tool", "r", none, "1"⟩] ⟨"user", "hi", none, ""⟩ =
      [⟨"tool", "r", none, "1"⟩, fillerMsg, ⟨"user", "hi", none, ""⟩] := by
  have h := c2_alternation_repaired.2 [⟨"tool", "r", none, "1"⟩] ⟨"user", "hi", none, ""⟩
    ⟨"tool", "r", none, "1"⟩ rfl rfl rfl
  simpa using h

/-! ## Claim C1 -/

/-- `emitText` in the merge case: append `"\n" + text` to the last message's
content. -/
theorem emitText_merge {msgs : List ChatMessage} {role text : String}
    {pre : List ChatMessage} {last : ChatMessage} (heq : msgs = pre ++ [last])
    (hm : mergeable (some last) role) :
    emitText role text msgs =
      pre ++ [{ last with content := last.content ++ "\n" ++ text }] := by
  subst heq
  unfold emitText
  split
  next last' hl =>
    rw [List.getLast?_concat] at hl
    injection hl with hl
    subst hl
    rw [if_pos hm, List.dropLast_concat]
  next hl =>
    rw [List.getLast?_concat] at hl
    cases hl

/-- `emitText` in the no-merge case: append a fresh plain message. -/
theorem emitText_new {msgs : List ChatMessage} {role text : String}
    (hm : ¬ mergeable msgs.getLast? role) :
    emitText role text msgs = msgs ++ [⟨role, text, none, ""⟩] := by
  unfold emitText
  split
  next last hl =>
    rw [hl] at hm
    rw [if_neg hm]
  next => rfl

/-- A turn with no function calls and non-empty text goes through
`emitText`, then appends its tool-response messages. -/
theorem processTurn_text {msgs : List ChatMessage} {c : Content}
    (hcalls : turnCalls c = []) (htext : turnText c ≠ "") :
    processTurn msgs c =
      emitText (turnRole c) (turnText c) msgs ++ (turnResponses c).map mkToolMsg := by
  simp only [processTurn, hcalls, ne_eq, not_true_eq_false, if_false]
  rw [if_pos htext]

/-- C1 (amended): a turn carrying non-empty text and no function calls is
merged into the immediately preceding outbound message if and only if that
message has the same wire role, carries no `toolCalls` and no `toolCallId` —
by appending `"\n"` + text to its content — and otherwise starts a new
message; consequently a pair of consecutive plain-text same-role turns
yields exactly one new outbound message with content `text1 + "\n" + text2`,
provided the outbound message preceding the pair (if any) is not itself
mergeable with the first turn of the pair. -/
theorem c1_merge_characterization :
    (∀ (c : Content) (pre : List ChatMessage) (last : ChatMessage),
      turnCalls c = [] → turnText c ≠ "" →
      (mergeable (some last) (turnRole c) →
        processTurn (pre ++ [last]) c =
          pre ++ [{ last with content := last.content ++ "\n" ++ turnText c }] ++
            (turnResponses c).map mkToolMsg) ∧
      (¬ mergeable (some last) (turnRole c) →
        processTurn (pre ++ [last]) c =
          (pre ++ [last]) ++ [⟨turnRole c, turnText c, none, ""⟩] ++
            (turnResponses c).map mkToolMsg)) ∧
    (∀ c : Content, turnCalls c = [] → turnText c ≠ "" →
      processTurn [] c =
        [⟨turnRole c, turnText c, none, ""⟩] ++ (turnResponses c).map mkToolMsg) ∧
    (∀ (msgs : List ChatMessage) (c1 c2 : Content),
      plainTurn c1 → plainTurn c2 → turnRole c1 = turnRole c2 →
      ¬ mergeable msgs.getLast? (turnRole c1) →
      [c1, c2].foldl processTurn msgs =
        msgs ++ [⟨turnRole c1, turnText c1 ++ "\n" ++ turnText c2, none, ""⟩]) := by
  refine ⟨?_, ?_, ?_⟩
  · intro c pre last hcalls htext
    constructor
    · intro hm
      rw [processTurn_text hcalls htext, emitText_merge rfl hm]
    · intro hm
      rw [processTurn_text hcalls htext,
        emitText_new (by rw [List.getLast?_concat]; exact hm)]
  · intro c hcalls htext
    have hm0 : ¬ mergeable (([] : List ChatMessage)).getLast? (turnRole c) := fun hx => hx
    rw [processTurn_text hcalls htext, emitText_new hm0]
    rfl
  · intro msgs c1 c2 h1 h2 hrole hm
    obtain ⟨hc1, hr1, ht1⟩ := h1
    obtain ⟨hc2, hr2, ht2⟩ := h2
    rw [List.foldl_cons, List.foldl_cons, List.foldl_nil]
    have e1 : processTurn msgs c1 = msgs ++ [⟨turnRole c1, turnText c1, none, ""⟩] := by
      rw [processTurn_text hc1 ht1, emitText_new hm, hr1]
      simp
    rw [e1]
    have hm2 : mergeable (some ⟨turnRole c1, turnText c1, none, ""⟩) (turnRole c2) :=
      ⟨hrole.symm ▸ rfl, rfl, rfl⟩
    rw [processTurn_text hc2 ht2, emitText_merge rfl hm2, hr2]
    simp

/-- Witness for C1 (amended): two consecutive plain `user` turns `"a"`,
`"b"` at the start of the conversation produce the single outbound message
`"a\nb"`. -/
theorem c1_merge_characterization_witness :
    [Content.mk "user" [⟨"a", none, none⟩], Content.mk "user" [⟨"b", none, none⟩]].foldl
        processTurn [] = [⟨"user", "a\nb", none, ""⟩] := by
  have h := c1_merge_characterization.2.2 [] ⟨"user", [⟨"a", none, none⟩]⟩
    ⟨"user", [⟨"b", none, none⟩]⟩ ⟨rfl, rfl, by decide⟩ ⟨rfl, rfl, by decide⟩ rfl
    (fun hx => hx)
  exact h

/-- C1 (as stated) is false for pairs embedded in a longer run of mergeable
turns: with three consecutive plain `user` turns `"a"`, `"b"`, `"c"` the
adapter emits the single message `"a\nb\nc"`, and no outbound message has
content `"a\nb"` (nor `"b\nc"`), so the pair `("a","b")` does not yield an
outbound message whose content is `text1 + "\n" + text2`. -/
theorem c1_counterexample :
    convertToMessages ⟨none, [⟨"user", [⟨"a", none, none⟩]⟩, ⟨"user", [⟨"b", none, none⟩]⟩,
        ⟨"user", [⟨"c", none, none⟩]⟩]⟩ = [⟨"user", "a\nb\nc", none, ""⟩] ∧
    ((convertToMessages ⟨none, [⟨"user", [⟨"a", none, none⟩]⟩, ⟨"user", [⟨"b", none, none⟩]⟩,
        ⟨"user", [⟨"c", none, none⟩]⟩]⟩).filter
      (fun m => m.content == "a\nb" || m.content == "b\nc")).length = 0 := by
  exact ⟨by decide, by decide⟩

/-! ## Claim C10 -/

/-- The simpler builder only ever appends: its step output extends its
input, by a block that does not depend on the input. -/
theorem processTurnV1_append (msgs : List ChatMessage) (c : Content) :
    processTurnV1 msgs c = msgs ++ processTurnV1 [] c := by
  simp only [processTurnV1]
  split_ifs <;> simp

theorem foldlV1_shift (cs : List Content) :
    ∀ msgs : List ChatMessage,
      cs.foldl processTurnV1 msgs = msgs ++ cs.foldl processTurnV1 [] := by
  induction cs with
  | nil => intro msgs; simp
  | cons c rest ih =>
    intro msgs
    rw [List.foldl_cons, List.foldl_cons, ih (processTurnV1 msgs c),
      ih (processTurnV1 [] c), processTurnV1_append msgs c, List.append_assoc]

/-- If the no-merge build has no merge-triggering adjacency, the merging
build coincides with it. -/
theorem foldl_eq_of_no_merge :
    ∀ (cs : List Content) (msgs : List ChatMessage),
      List.Chain' noMergeAdj (cs.foldl processTurnV1 msgs) →
      cs.foldl processTurn msgs = cs.foldl processTurnV1 msgs := by
  intro cs
  induction cs with
  | nil => intro msgs _; rfl
  | cons c rest ih =>
    intro msgs h
    rw [List.foldl_cons] at h
    rw [List.foldl_cons, List.foldl_cons]
    have hstep : processTurn msgs c = processTurnV1 msgs c := by
      by_cases hcalls : turnCalls c = []
      · by_cases htext : turnText c = ""
        · simp only [processTurn, processTurnV1, hcalls, ne_eq, not_true_eq_false, if_false]
          rw [if_neg (by simp [htext]), if_neg (by simp [htext])]
        · have hTX : turnText c ≠ "" := htext
          have hb1 : processTurnV1 msgs c =
              msgs ++ [⟨turnRole c, turnText c, none, ""⟩] ++
                (turnResponses c).map mkToolMsg := by
            simp only [processTurnV1, hcalls, ne_eq, not_true_eq_false, if_false]
            rw [if_pos hTX]
          by_cases hm : mergeable msgs.getLast? (turnRole c)
          · exfalso
            cases hl : msgs.getLast? with
            | none => rw [hl] at hm; exact hm
            | some last =>
              rw [hl] at hm
              obtain ⟨pre, hpre⟩ := List.getLast?_eq_some_iff.mp hl
              rw [foldlV1_shift rest (processTurnV1 msgs c), hb1, hpre] at h
              have hrw : pre ++ [last] ++ [⟨turnRole c, turnText c, none, ""⟩] ++
                    (turnResponses c).map mkToolMsg ++ rest.foldl processTurnV1 [] =
                  pre ++ ([last, ⟨turnRole c, turnText c, none, ""⟩] ++
                    ((turnResponses c).map mkToolMsg ++ rest.foldl processTurnV1 [])) := by
                simp
              rw [hrw] at h
              have hR := List.chain'_pair.mp
                (List.Chain'.left_of_append (List.Chain'.right_of_append h))
              exact hR ⟨rfl, rfl, hm.1, hm.2.1, hm.2.2⟩
          · rw [processTurn_text hcalls hTX, emitText_new hm, hb1]
      · simp only [processTurn, processTurnV1]
        rw [if_pos hcalls, if_pos hcalls]
    rw [hstep]
    exact ih (processTurnV1 msgs c) h

/-- If the built sequence has no tool→user adjacency, the repair pass is the
identity. -/
theorem repair_foldl_noop :
    ∀ (msgs acc : List ChatMessage),
      List.Chain' noToolUserAdj (acc ++ msgs) →
      msgs.foldl repairStep acc = acc ++ msgs := by
  intro msgs
  induction msgs with
  | nil => intro acc _; simp
  | cons m rest ih =>
    intro acc h
    rw [List.foldl_cons]
    have hstep : repairStep acc m = acc ++ [m] := by
      unfold repairStep
      split
      next last hl =>
        have hx := (List.chain'_append.mp h).2.2 last (by simp [hl]) m (by simp)
        rw [if_neg (fun hc => hx ⟨hc.2, hc.1⟩)]
      next => rfl
    rw [hstep]
    have h2 : List.Chain' noToolUserAdj ((acc ++ [m]) ++ rest) := by
      rw [List.append_assoc, List.singleton_append]
      exact h
    have h3 := ih (acc ++ [m]) h2
    simpa using h3

/-- C10: for every request where the complete builder's merge branch and the
alternation repair never trigger — no plain-text message directly following
a same-role message with no tool metadata, and no user message directly
following a tool message, in the no-merge build — the complete version and
the earlier simpler version construct identical outbound message
sequences. -/
theorem c10_versions_agree (req : LLMRequest)
    (hmerge : List.Chain' noMergeAdj (convertToMessagesV1 req))
    (hrepair : List.Chain' noToolUserAdj (convertToMessagesV1 req)) :
    convertToMessages req = convertToMessagesV1 req := by
  unfold convertToMessages
  unfold convertToMessagesV1 at hmerge hrepair ⊢
  rw [foldl_eq_of_no_merge req.contents (sysMessages req) hmerge]
  unfold repairAlternation
  have hfin := repair_foldl_noop (req.contents.foldl processTurnV1 (sysMessages req)) []
    (by simpa using hrepair)
  simpa using hfin

/-- Witness for C10 at a request with a system instruction, one user turn
and one model turn. -/
theorem c10_versions_agree_witness :
    convertToMessages ⟨some [⟨"sys", none, none⟩], [⟨"user", [⟨"hi", none, none⟩]⟩,
        ⟨"model", [⟨"ok", none, none⟩]⟩]⟩ =
      convertToMessagesV1 ⟨some [⟨"sys", none, none⟩], [⟨"user", [⟨"hi", none, none⟩]⟩,
        ⟨"model", [⟨"ok", none, none⟩]⟩]⟩ := by
  have he : convertToMessagesV1 ⟨some [⟨"sys", none, none⟩], [⟨"user", [⟨"hi", none, none⟩]⟩,
      ⟨"model", [⟨"ok", none, none⟩]⟩]⟩ =
      [⟨"system", "sys", none, ""⟩, ⟨"user", "hi", none, ""⟩, ⟨"assistant", "ok", none, ""⟩] := by
    decide
  apply c10_versions_agree
  · rw [he]
    exact List.chain'_cons.mpr ⟨by decide,
      List.chain'_cons.mpr ⟨by decide, List.chain'_singleton _⟩⟩
  · rw [he]
    exact List.chain'_cons.mpr ⟨by decide,
      List.chain'_cons.mpr ⟨by decide, List.chain'_singleton _⟩⟩

/-! ## Claim C7 -/

theorem concat_inj' {α : Type} {l₁ l₂ : List α} {a b : α}
    (h : l₁ ++ [a] = l₂ ++ [b]) : l₁ = l₂ ∧ a = b := by
  have h2 := List.append_inj' h rfl
  refine ⟨h2.1, ?_⟩
  have h3 := h2.2
  injection h3

/-- Splitting a snoc list around a distinguished element: either the element
is the appended one, or the split lies inside the prefix. -/
theorem append_singleton_cases {α : Type} {xs pre suf : List α} {y m : α}
    (h : pre ++ m :: suf = xs ++ [y]) :
    (pre = xs ∧ m = y ∧ suf = []) ∨ ∃ suf', suf = suf' ++ [y] ∧ xs = pre ++ m :: suf' := by
  rcases List.eq_nil_or_concat suf with rfl | ⟨suf', a, rfl⟩
  · obtain ⟨h1, h2⟩ := concat_inj' h
    exact Or.inl ⟨h1, h2, rfl⟩
  · simp only [List.concat_eq_append] at h ⊢
    have h2 : (pre ++ m :: suf') ++ [a] = xs ++ [y] := by
      rw [← h]
      simp
    obtain ⟨h3, h4⟩ := concat_inj' h2
    exact Or.inr ⟨suf', by rw [h4], h3.symm⟩

theorem refsPriorCall_mono {seen seen' : List ChatMessage} {m : ChatMessage}
    (hsub : ∀ x ∈ seen, x ∈ seen') (h : refsPriorCall seen m) : refsPriorCall seen' m := by
  intro ht
  obtain ⟨m', hm', hrest⟩ := h ht
  exact ⟨m', hsub m' hm', hrest⟩

theorem toolCallsLinked_append_iff {xs : List ChatMessage} {y : ChatMessage} :
    toolCallsLinked (xs ++ [y]) ↔ toolCallsLinked xs ∧ refsPriorCall xs y := by
  constructor
  · intro h
    constructor
    · intro pre m suf heq
      exact h pre m (suf ++ [y]) (by rw [heq]; simp)
    · exact h xs y [] rfl
  · rintro ⟨h1, h2⟩ pre m suf heq
    rcases append_singleton_cases heq.symm with ⟨rfl, rfl, rfl⟩ | ⟨suf', rfl, heq2⟩
    · exact h2
    · exact h1 pre m suf' heq2

theorem toolCallsLinked_nil : toolCallsLinked [] := by
  intro pre m suf heq
  exfalso
  simp at heq

theorem toolCallsLinked_append_nontool {xs : List ChatMessage} {y : ChatMessage}
    (h : toolCallsLinked xs) (hy : y.role ≠ "tool") : toolCallsLinked (xs ++ [y]) :=
  toolCallsLinked_append_iff.mpr ⟨h, fun ht => absurd ht hy⟩

theorem toolCallsLinked_singleton {x : ChatMessage} (h : x.role ≠ "tool") :
    toolCallsLinked [x] := by
  have hx := toolCallsLinked_append_nontool toolCallsLinked_nil h
  simpa using hx

/-- Appending tool messages whose ids all have assistant witnesses in the
existing sequence preserves the linking invariant. -/
theorem toolCallsLinked_append_tools {frs : List FuncResponse} :
    ∀ xs : List ChatMessage, toolCallsLinked xs →
      (∀ fr ∈ frs, ∃ m' ∈ xs, m'.role = "assistant" ∧
        ∃ tcs, m'.toolCalls = some tcs ∧ fr.id ∈ tcs.map WireToolCall.id) →
      toolCallsLinked (xs ++ frs.map mkToolMsg) := by
  induction frs with
  | nil => intro xs h _; simpa using h
  | cons fr rest ih =>
    intro xs h hfr
    have h1 : toolCallsLinked (xs ++ [mkToolMsg fr]) := by
      refine toolCallsLinked_append_iff.mpr ⟨h, ?_⟩
      intro _
      exact hfr fr (by simp)
    have h2 : ∀ fr' ∈ rest, ∃ m' ∈ xs ++ [mkToolMsg fr], m'.role = "assistant" ∧
        ∃ tcs, m'.toolCalls = some tcs ∧ fr'.id ∈ tcs.map WireToolCall.id := by
      intro fr' hfr'
      obtain ⟨m', hm', hrest⟩ := hfr fr' (by simp [hfr'])
      exact ⟨m', by simp [hm'], hrest⟩
    have h3 := ih (xs ++ [mkToolMsg fr]) h1 h2
    simpa using h3

theorem turnRole_ne_tool (c : Content) : turnRole c ≠ "tool" := by
  unfold turnRole
  split <;> decide

theorem callIds_of_no_calls {c : Content} (h : turnCalls c = []) : callIds c = [] := by
  unfold callIds
  rw [h]
  rfl

theorem callIdsAll_shift (l : List Content) :
    ∀ a : List String, l.foldl (fun acc c => acc ++ callIds c) a = a ++ callIdsAll l := by
  induction l with
  | nil => intro a; simp [callIdsAll]
  | cons c rest ih =>
    intro a
    rw [List.foldl_cons, ih]
    conv_rhs => rw [callIdsAll, List.foldl_cons, ih]
    simp

theorem callIdsAll_append (l1 l2 : List Content) :
    callIdsAll (l1 ++ l2) = callIdsAll l1 ++ callIdsAll l2 := by
  unfold callIdsAll
  rw [List.foldl_append, callIdsAll_shift]
  rfl

theorem processTurn_calls {msgs : List ChatMessage} {c : Content}
    (h : turnCalls c ≠ []) :
    processTurn msgs c =
      (msgs ++ [⟨"assistant", turnText c, some (turnCalls c), ""⟩]) ++
        (turnResponses c).map mkToolMsg := by
  simp only [processTurn]
  rw [if_pos h]

theorem processTurn_no_text {msgs : List ChatMessage} {c : Content}
    (hcalls : turnCalls c = []) (htext : turnText c = "") :
    processTurn msgs c = msgs ++ (turnResponses c).map mkToolMsg := by
  simp only [processTurn, hcalls, ne_eq, not_true_eq_false, if_false]
  rw [if_neg (by simp [htext])]

/-- Main induction for C7: folding the complete builder over turns
preserves the linking invariant, given well-formedness of the remaining
turns relative to the processed ones. -/
theorem build_linked :
    ∀ (cs done : List Content) (msgs : List ChatMessage),
      (∀ pre c suf, done ++ cs = pre ++ c :: suf → ∀ fr ∈ turnResponses c,
        fr.id ∈ callIdsAll (pre ++ [c])) →
      toolCallsLinked msgs →
      (∀ id ∈ callIdsAll done, ∃ m' ∈ msgs, m'.role = "assistant" ∧
        ∃ tcs, m'.toolCalls = some tcs ∧ id ∈ tcs.map WireToolCall.id) →
      toolCallsLinked (cs.foldl processTurn msgs) := by
  intro cs
  induction cs with
  | nil => intro done msgs _ h2 _; exact h2
  | cons c rest ih =>
    intro done msgs hwf h2 h3
    rw [List.foldl_cons]
    have hwfc := hwf done c rest rfl
    -- Invariant after the text/call phase of this turn.
    have hphase : ∃ msgs1, processTurn msgs c = msgs1 ++ (turnResponses c).map mkToolMsg ∧
        toolCallsLinked msgs1 ∧
        (∀ id ∈ callIdsAll (done ++ [c]), ∃ m' ∈ msgs1, m'.role = "assistant" ∧
          ∃ tcs, m'.toolCalls = some tcs ∧ id ∈ tcs.map WireToolCall.id) := by
      by_cases hcalls : turnCalls c = []
      · have hid0 : ∀ id ∈ callIdsAll (done ++ [c]), id ∈ callIdsAll done := by
          intro id hid
          rw [callIdsAll_append] at hid
          simp only [List.mem_append] at hid
          rcases hid with hid | hid
          · exact hid
          · rw [show callIdsAll [c] = callIds c from by
              simp [callIdsAll, callIds_of_no_calls hcalls]] at hid
            rw [callIds_of_no_calls hcalls] at hid
            cases hid
        by_cases htext : turnText c = ""
        · exact ⟨msgs, processTurn_no_text hcalls htext, h2,
            fun id hid => h3 id (hid0 id hid)⟩
        · by_cases hm : mergeable msgs.getLast? (turnRole c)
          · cases hl : msgs.getLast? with
            | none => rw [hl] at hm; cases hm
            | some last =>
              rw [hl] at hm
              obtain ⟨pre, hpre⟩ := List.getLast?_eq_some_iff.mp hl
              refine ⟨pre ++ [{ last with content := last.content ++ "\n" ++ turnText c }],
                ?_, ?_, ?_⟩
              · rw [processTurn_text hcalls htext, emitText_merge hpre hm]
              · subst hpre
                obtain ⟨hp, hrc⟩ := toolCallsLinked_append_iff.mp h2
                exact toolCallsLinked_append_iff.mpr ⟨hp, fun ht => hrc ht⟩
              · intro id hid
                obtain ⟨m', hm', hrole, tcs, htcs, hidm⟩ := h3 id (hid0 id hid)
                subst hpre
                rcases List.mem_append.mp hm' with hm'' | hm''
                · exact ⟨m', by simp [hm''], hrole, tcs, htcs, hidm⟩
                · exfalso
                  have hlast : m' = last := by simpa using hm''
                  subst hlast
                  rw [hm.2.1] at htcs
                  exact Option.noConfusion htcs
          · refine ⟨msgs ++ [⟨turnRole c, turnText c, none, ""⟩], ?_, ?_, ?_⟩
            · rw [processTurn_text hcalls htext, emitText_new hm]
            · exact toolCallsLinked_append_nontool h2 (turnRole_ne_tool c)
            · intro id hid
              obtain ⟨m', hm', hrest⟩ := h3 id (hid0 id hid)
              exact ⟨m', by simp [hm'], hrest⟩
      · refine ⟨msgs ++ [⟨"assistant", turnText c, some (turnCalls c), ""⟩],
          processTurn_calls hcalls,
          toolCallsLinked_append_nontool h2 (show ("assistant" : String) ≠ "tool" by decide),
          ?_⟩
        intro id hid
        rw [callIdsAll_append] at hid
        simp only [List.mem_append] at hid
        rcases hid with hid | hid
        · obtain ⟨m', hm', hrest⟩ := h3 id hid
          exact ⟨m', by simp [hm'], hrest⟩
        · rw [show callIdsAll [c] = callIds c from by simp [callIdsAll]] at hid
          exact ⟨⟨"assistant", turnText c, some (turnCalls c), ""⟩, by simp, rfl,
            turnCalls c, rfl, hid⟩
    obtain ⟨msgs1, heq, hlinked1, hids1⟩ := hphase
    rw [heq]
    have hfr : ∀ fr ∈ turnResponses c, ∃ m' ∈ msgs1, m'.role = "assistant" ∧
        ∃ tcs, m'.toolCalls = some tcs ∧ fr.id ∈ tcs.map WireToolCall.id := by
      intro fr hfr
      exact hids1 fr.id (hwfc fr hfr)
    have hlinked2 := toolCallsLinked_append_tools msgs1 hlinked1 hfr
    have hids2 : ∀ id ∈ callIdsAll (done ++ [c]),
        ∃ m' ∈ msgs1 ++ (turnResponses c).map mkToolMsg, m'.role = "assistant" ∧
          ∃ tcs, m'.toolCalls = some tcs ∧ id ∈ tcs.map WireToolCall.id := by
      intro id hid
      obtain ⟨m', hm', hrest⟩ := hids1 id hid
      exact ⟨m', by simp [hm'], hrest⟩
    have hwf' : ∀ pre c' suf, (done ++ [c]) ++ rest = pre ++ c' :: suf →
        ∀ fr ∈ turnResponses c', fr.id ∈ callIdsAll (pre ++ [c']) := by
      intro pre c' suf heq' fr hfr'
      refine hwf pre c' suf ?_ fr hfr'
      rw [← heq']
      simp
    exact ih (done ++ [c]) (msgs1 ++ (turnResponses c).map mkToolMsg) hwf' hlinked2 hids2

/-- One repair-scan step preserves linking, transporting witnesses through
the possible filler insertion. -/
theorem repair_preserves_linked :
    ∀ (rest acc : List ChatMessage),
      toolCallsLinked acc →
      (∀ pre m suf, rest = pre ++ m :: suf → m.role = "tool" →
        ∃ m', (m' ∈ acc ∨ m' ∈ pre) ∧ m'.role = "assistant" ∧
          ∃ tcs, m'.toolCalls = some tcs ∧ m.toolCallId ∈ tcs.map WireToolCall.id) →
      toolCallsLinked (rest.foldl repairStep acc) := by
  intro rest
  induction rest with
  | nil => intro acc h1 _; exact h1
  | cons m rest' ih =>
    intro acc h1 h2
    rw [List.foldl_cons]
    have hstep : ∃ accF, repairStep acc m = accF ++ [m] ∧ toolCallsLinked accF ∧
        (∀ x ∈ acc, x ∈ accF) := by
      unfold repairStep
      split
      next last hl =>
        split
        next hcond =>
          exact ⟨acc ++ [fillerMsg], rfl,
            toolCallsLinked_append_nontool h1 (by decide), fun x hx => by simp [hx]⟩
        next hcond => exact ⟨acc, rfl, h1, fun x hx => hx⟩
      next hl => exact ⟨acc, rfl, h1, fun x hx => hx⟩
    obtain ⟨accF, heq, hlF, hsub⟩ := hstep
    rw [heq]
    apply ih
    · refine toolCallsLinked_append_iff.mpr ⟨hlF, ?_⟩
      intro ht
      obtain ⟨m', hm', hrest⟩ := h2 [] m rest' rfl ht
      rcases hm' with hacc | hnil
      · exact ⟨m', hsub m' hacc, hrest⟩
      · exact absurd hnil (List.not_mem_nil m')
    · intro pre m2 suf heq2 ht
      obtain ⟨m', hm', hrest⟩ := h2 (m :: pre) m2 suf (by rw [heq2]; rfl) ht
      rcases hm' with hacc | hmp
      · exact ⟨m', Or.inl (by simp [hsub m' hacc]), hrest⟩
      · rcases List.mem_cons.mp hmp with rfl | hpre
        · exact ⟨m', Or.inl (by simp), hrest⟩
        · exact ⟨m', Or.inr hpre, hrest⟩

/-- C7 (amended): for every well-formed request — every function response id
matches a function call carried by the same or an earlier turn — every
`tool`-role message in the adapter's outbound sequence carries a
`toolCallId` equal to the id of a tool-call entry in the `toolCalls` list of
some preceding assistant message. -/
theorem c7_tool_messages_reference_calls (req : LLMRequest) (hwf : wellFormedReq req) :
    toolCallsLinked (convertToMessages req) := by
  unfold convertToMessages
  have hsys : toolCallsLinked (sysMessages req) := by
    simp only [sysMessages]
    split
    · exact toolCallsLinked_nil
    · split
      · exact toolCallsLinked_singleton (show ("system" : String) ≠ "tool" by decide)
      · exact toolCallsLinked_nil
  have hbuild : toolCallsLinked (req.contents.foldl processTurn (sysMessages req)) := by
    refine build_linked req.contents [] (sysMessages req) ?_ hsys ?_
    · intro pre c suf heq fr hfr
      exact hwf pre c suf (by simpa using heq) fr hfr
    · intro id hid
      simp [callIdsAll] at hid
  unfold repairAlternation
  refine repair_preserves_linked _ [] toolCallsLinked_nil ?_
  intro pre m suf heq ht
  obtain ⟨m', hm', hrest⟩ := hbuild pre m suf heq ht
  exact ⟨m', Or.inr hm', hrest⟩

/-- C7 (as stated) is false: a request whose single turn carries only a
function response emits a `tool` message whose `toolCallId` references no
preceding assistant `toolCalls` entry — there is no assistant message at
all. -/
theorem c7_counterexample :
    convertToMessages ⟨none, [⟨"user", [⟨"", none, some ⟨"x", "f", "{}"⟩⟩]⟩]⟩ =
      [⟨"tool", "{}", none, "x"⟩] ∧
    ¬ toolCallsLinked (convertToMessages ⟨none, [⟨"user", [⟨"", none,
        some ⟨"x", "f", "{}"⟩⟩]⟩]⟩) := by
  have he : convertToMessages ⟨none, [⟨"user", [⟨"", none, some ⟨"x", "f", "{}"⟩⟩]⟩]⟩ =
      [⟨"tool", "{}", none, "x"⟩] := by decide
  refine ⟨he, ?_⟩
  rw [he]
  intro h
  obtain ⟨m', hm', _⟩ := h [] ⟨"tool", "{}", none, "x"⟩ [] rfl rfl
  exact absurd hm' (List.not_mem_nil m')

/-- Witness for C7 (amended): a model turn calling `f` with id `"x"`
followed by a user turn carrying the matching response. -/
theorem c7_tool_messages_reference_calls_witness :
    toolCallsLinked (convertToMessages ⟨none,
      [⟨"model", [⟨"", some ⟨"x", "f", "{}"⟩, none⟩]⟩,
       ⟨"user", [⟨"", none, some ⟨"x", "f", "{}"⟩⟩]⟩]⟩) := by
  apply c7_tool_messages_reference_calls
  intro pre c suf heq fr hfr
  cases pre with
  | nil =>
    injection heq with h1 h2
    subst h1
    have e1 : turnResponses (⟨"model", [⟨"", some ⟨"x", "f", "{}"⟩, none⟩]⟩ : Content)
        = [] := rfl
    rw [e1] at hfr
    exact absurd hfr (List.not_mem_nil fr)
  | cons p pre' =>
    cases pre' with
    | nil =>
      injection heq with h1 h2
      injection h2 with h3 h4
      subst h1
      subst h3
      have e2 : turnResponses (⟨"user", [⟨"", none, some ⟨"x", "f", "{}"⟩⟩]⟩ : Content)
          = [⟨"x", "f", "{}"⟩] := rfl
      rw [e2] at hfr
      have hfr2 : fr = ⟨"x", "f", "{}"⟩ := by simpa using hfr
      subst hfr2
      decide
    | cons q pre'' =>
      injection heq with h1 h2
      injection h2 with h3 h4
      exfalso
      simp at h4

end MultiAgent
